import Mathlib

/-!
Verification of the example notebooks in the `cvxconsensus` repository.

The repository consists of two driver notebooks: sparse inverse covariance
estimation and a coupled quadratic program.  Both assemble a splitting-form
problem (a list of proximal operators, coupling matrices and a right-hand
side) and delegate the solve to an external operator-splitting solver.
This file embeds the glue logic of those notebooks — index flattening and
reshaping, thresholding, problem assembly, the QP proximal operator and the
result post-processing — and proves the properties stated about them.

Numpy flat arrays are modelled as functions `Fin (m * n) → α` and matrices
as `Fin m → Fin n → α` (or `Matrix`), with row-major (`order = C`) indexing
made explicit through `flatIdx`, `divIdx` and `modIdx`.  Real arithmetic in
the notebooks is modelled over `ℚ` where the claims are decidable and over
`ℝ` where minimisation or square roots are involved.
-/

open Matrix

/-- Row-major (C-order) position of entry `(i, j)` of an `m × n` array
inside the flattened length-`m * n` buffer. -/
def flatIdx (m n : ℕ) (i : Fin m) (j : Fin n) : Fin (m * n) :=
  ⟨i.val * n + j.val, by
    have h1 : i.val * n + j.val < i.val * n + n := Nat.add_lt_add_left j.isLt _
    have h2 : i.val * n + n = (i.val + 1) * n := by ring
    have h3 : (i.val + 1) * n ≤ m * n := Nat.mul_le_mul_right n i.isLt
    omega⟩

/-- Row of the `m × n` array containing flat position `k` (C order). -/
def divIdx (m n : ℕ) (k : Fin (m * n)) : Fin m :=
  ⟨k.val / n, by
    have hk := k.isLt
    have hn : 0 < n := by
      rcases Nat.eq_zero_or_pos n with h | h
      · subst h; omega
      · exact h
    exact (Nat.div_lt_iff_lt_mul hn).mpr hk⟩

/-- Column of the `m × n` array containing flat position `k` (C order). -/
def modIdx (m n : ℕ) (k : Fin (m * n)) : Fin n :=
  ⟨k.val % n, by
    have hk := k.isLt
    have hn : 0 < n := by
      rcases Nat.eq_zero_or_pos n with h | h
      · subst h; omega
      · exact h
    exact Nat.mod_lt _ hn⟩

theorem divIdx_flatIdx {m n : ℕ} (i : Fin m) (j : Fin n) :
    divIdx m n (flatIdx m n i j) = i := by
  apply Fin.ext
  show (i.val * n + j.val) / n = i.val
  rw [Nat.mul_comm, Nat.mul_add_div j.pos, Nat.div_eq_of_lt j.isLt]
  omega

theorem modIdx_flatIdx {m n : ℕ} (i : Fin m) (j : Fin n) :
    modIdx m n (flatIdx m n i j) = j := by
  apply Fin.ext
  show (i.val * n + j.val) % n = j.val
  rw [Nat.mul_comm, Nat.mul_add_mod]
  exact Nat.mod_eq_of_lt j.isLt

theorem flatIdx_divIdx_modIdx {m n : ℕ} (k : Fin (m * n)) :
    flatIdx m n (divIdx m n k) (modIdx m n k) = k := by
  apply Fin.ext
  show k.val / n * n + k.val % n = k.val
  rw [Nat.mul_comm]
  exact Nat.div_add_mod k.val n

/-- The bijection between pair indices and C-order flat indices. -/
def finPairEquiv (m n : ℕ) : Fin m × Fin n ≃ Fin (m * n) where
  toFun p := flatIdx m n p.1 p.2
  invFun k := (divIdx m n k, modIdx m n k)
  left_inv p := by
    cases p with
    | mk i j => simp [divIdx_flatIdx, modIdx_flatIdx]
  right_inv k := flatIdx_divIdx_modIdx k

namespace SparseCov

/-! Sparse inverse covariance estimation notebook.

The notebook stores the estimate as a flat length-`q * q` vector (the
solver's block variable) and views it as a `q × q` matrix through
`reshape((q, q), order = C)`; `ravel(order = C)` is the inverse direction.
-/

/-- Numpy reshape `v.reshape((q, q), order = C)`: view a flat buffer as a square matrix. -/
def reshapeC (q : ℕ) (v : Fin (q * q) → ℚ) : Fin q → Fin q → ℚ :=
  fun i j => v (flatIdx q q i j)

/-- Numpy ravel `M.ravel(order = C)`: flatten a square matrix row-major. -/
def ravelC (q : ℕ) (M : Fin q → Fin q → ℚ) : Fin (q * q) → ℚ :=
  fun k => M (divIdx q q k) (modIdx q q k)

/-- C6: flattening a square matrix row-major and reshaping it back with the
same ordering is a strict identity. -/
theorem reshape_ravel_id (q : ℕ) (M : Fin q → Fin q → ℚ) :
    reshapeC q (ravelC q M) = M := by
  funext i j
  simp [reshapeC, ravelC, divIdx_flatIdx, modIdx_flatIdx]

/-- One entry of `S_thres[np.abs(S_thres) <= 1e-4] = 0`: snap a value whose
magnitude is at most `1e-4` to exactly zero. -/
def snapZero (x : ℚ) : ℚ := if |x| ≤ 1 / 10000 then 0 else x

/-- The thresholding of the result matrix, entrywise. -/
def thresholdMat (q : ℕ) (M : Fin q → Fin q → ℚ) : Fin q → Fin q → ℚ :=
  fun i j => snapZero (M i j)

/-- C7: the `1e-4` zero-snap thresholding is idempotent. -/
theorem threshold_idempotent (q : ℕ) (M : Fin q → Fin q → ℚ) :
    thresholdMat q (thresholdMat q M) = thresholdMat q M := by
  funext i j
  simp only [thresholdMat, snapZero]
  rcases le_or_lt |M i j| (1 / 10000) with h | h
  · rw [if_pos h]
    simp
  · rw [if_neg (not_le.mpr h), if_neg (not_le.mpr h)]

/-! Reshaping the last stored solution vector of the returned result object
with `reshape((q, q), order = C)` yields a numpy *view* of that stored flat
buffer: `S_thres = a2dr_S` aliases it and
the masked assignment `S_thres[np.abs(S_thres) <= 1e-4] = 0` writes through
the view into the underlying buffer.  `thresholdAssign` is the state of the
stored buffer after that in-place assignment: position `k` is overwritten
with `0` exactly when some matrix cell `(i, j)` of the view lies at `k` and
satisfies the mask. -/
def thresholdAssign (q : ℕ) (buf : Fin (q * q) → ℚ) : Fin (q * q) → ℚ :=
  fun k =>
    if ∃ i j, flatIdx q q i j = k ∧ |reshapeC q buf i j| ≤ 1 / 10000 then 0
    else buf k

theorem thresholdAssign_apply (q : ℕ) (buf : Fin (q * q) → ℚ) (k : Fin (q * q)) :
    thresholdAssign q buf k = if |buf k| ≤ 1 / 10000 then 0 else buf k := by
  have hiff : (∃ i j, flatIdx q q i j = k ∧ |reshapeC q buf i j| ≤ 1 / 10000) ↔
      |buf k| ≤ 1 / 10000 := by
    constructor
    · rintro ⟨i, j, hk, habs⟩
      rw [← hk]
      exact habs
    · intro hk
      refine ⟨divIdx q q k, modIdx q q k, flatIdx_divIdx_modIdx k, ?_⟩
      simpa [reshapeC, flatIdx_divIdx_modIdx] using hk
  simp only [thresholdAssign, hiff]

/-- C3 counterexample: post-processing a stored solution vector whose entry
is `1e-5` changes the stored vector (the threshold writes through the view). -/
theorem threshold_mutates_result :
    thresholdAssign 1 (fun _ => (1 : ℚ) / 100000) ≠ (fun _ => (1 : ℚ) / 100000) := by
  intro hEq
  have h0 := congrFun hEq ⟨0, by norm_num⟩
  rw [thresholdAssign_apply] at h0
  rw [abs_of_pos (by norm_num : (0 : ℚ) < 1 / 100000)] at h0
  rw [if_pos (by norm_num : (1 : ℚ) / 100000 ≤ 1 / 10000)] at h0
  norm_num at h0

/-- C3 (amended): because the reshape is a view and the thresholding assigns
in place through it, the stored solution vector is left unchanged if and
only if every entry of magnitude at most `1e-4` is already exactly zero. -/
theorem threshold_leaves_result_iff (q : ℕ) (buf : Fin (q * q) → ℚ) :
    thresholdAssign q buf = buf ↔ ∀ k, |buf k| ≤ 1 / 10000 → buf k = 0 := by
  constructor
  · intro hEq k hk
    have h := congrFun hEq k
    rw [thresholdAssign_apply, if_pos hk] at h
    exact h.symm
  · intro hz
    funext k
    rw [thresholdAssign_apply]
    split_ifs with hk
    · exact (hz k hk).symm
    · rfl

/-! The regularisation sweep: `mask = np.ones(Q.shape, dtype=bool)` followed
by `np.fill_diagonal(mask, 0)` marks the off-diagonal entries; `alpha_max`
is the largest `|Q[i, j]|` over the masked positions, and the swept values
are `alpha_ratios * alpha_max` with `alpha_ratios = [1, 0.1, 0.01]`. -/
def covMask (q : ℕ) : Fin q → Fin q → Bool :=
  fun i j => if i = j then false else true

def maskSet (q : ℕ) : Finset (Fin q × Fin q) :=
  Finset.univ.filter (fun p => covMask q p.1 p.2 = true)

theorem maskSet_nonempty (q : ℕ) (hq : 2 ≤ q) : (maskSet q).Nonempty := by
  refine ⟨(⟨0, by omega⟩, ⟨1, by omega⟩), ?_⟩
  refine Finset.mem_filter.mpr ⟨Finset.mem_univ _, ?_⟩
  simp [covMask, Fin.ext_iff]

def alpha_max (q : ℕ) (Q : Fin q → Fin q → ℚ) (hq : 2 ≤ q) : ℚ :=
  (maskSet q).sup' (maskSet_nonempty q hq) (fun p => |Q p.1 p.2|)

def alpha_ratios : List ℚ := [1, 1 / 10, 1 / 100]

def alphas (q : ℕ) (Q : Fin q → Fin q → ℚ) (hq : 2 ≤ q) : List ℚ :=
  alpha_ratios.map (fun r => r * alpha_max q Q hq)

/-- C8: `alpha_max` is the maximum absolute value over the off-diagonal
entries of `Q`, and the swept list is exactly
`[alpha_max, 0.1 * alpha_max, 0.01 * alpha_max]`. -/
theorem alpha_sweep_spec (q : ℕ) (Q : Fin q → Fin q → ℚ) (hq : 2 ≤ q) :
    (∀ i j : Fin q, i ≠ j → |Q i j| ≤ alpha_max q Q hq) ∧
    (∃ i j : Fin q, i ≠ j ∧ alpha_max q Q hq = |Q i j|) ∧
    alphas q Q hq =
      [alpha_max q Q hq, 1 / 10 * alpha_max q Q hq, 1 / 100 * alpha_max q Q hq] := by
  refine ⟨?_, ?_, ?_⟩
  · intro i j hij
    have hmem : (i, j) ∈ maskSet q := by
      refine Finset.mem_filter.mpr ⟨Finset.mem_univ _, ?_⟩
      simp [covMask, hij]
    have h2 := Finset.le_sup' (fun p : Fin q × Fin q => |Q p.1 p.2|) hmem
    rw [alpha_max]
    exact h2
  · rw [alpha_max]
    obtain ⟨p, hp, hval⟩ :=
      Finset.exists_mem_eq_sup' (maskSet_nonempty q hq) (fun p : Fin q × Fin q => |Q p.1 p.2|)
    have hne : p.1 ≠ p.2 := by
      have hmask := (Finset.mem_filter.mp hp).2
      by_contra hpe
      simp [covMask, hpe] at hmask
    exact ⟨p.1, p.2, hne, hval⟩
  · simp [alphas, alpha_ratios]

def Qw : Fin 2 → Fin 2 → ℚ := fun a b => ((a.val + b.val : ℕ) : ℚ)

theorem alpha_sweep_spec_witness :
    2 ≤ 2 ∧
    ((∀ i j : Fin 2, i ≠ j → |Qw i j| ≤ alpha_max 2 Qw (Nat.le_refl 2)) ∧
      (∃ i j : Fin 2, i ≠ j ∧ alpha_max 2 Qw (Nat.le_refl 2) = |Qw i j|) ∧
      alphas 2 Qw (Nat.le_refl 2) =
        [alpha_max 2 Qw (Nat.le_refl 2),
         1 / 10 * alpha_max 2 Qw (Nat.le_refl 2),
         1 / 100 * alpha_max 2 Qw (Nat.le_refl 2)]) :=
  ⟨Nat.le_refl 2, alpha_sweep_spec 2 Qw (Nat.le_refl 2)⟩

/-! Problem assembly for one `alpha`: two proximal operators (the external
log-det proximal primitive read through the reshape view and the external
L1-norm proximal primitive), the coupling matrices `[eye(q * q),
-eye(q * q)]` and the right-hand side `b = zeros(q * q)`.  The external
proximal primitives are parameters. -/
def prox_list (q : ℕ) (Q : Fin q → Fin q → ℚ) (alpha : ℚ)
    (pnld : (Fin q → Fin q → ℚ) → ℚ → (Fin q → Fin q → ℚ) → Fin q → Fin q → ℚ)
    (pn1 : (Fin (q * q) → ℚ) → ℚ → Fin (q * q) → ℚ) :
    List ((Fin (q * q) → ℚ) → ℚ → Fin (q * q) → ℚ) :=
  [fun v t => ravelC q (pnld (reshapeC q v) t (fun i j => t * Q i j)),
   fun v t => pn1 v (t * alpha)]

def A_list (q : ℕ) : List (Matrix (Fin (q * q)) (Fin (q * q)) ℚ) := [1, -1]

def b (q : ℕ) : Fin (q * q) → ℚ := fun _ => 0

/-- C9: the covariance problem is assembled from exactly two proximal
operators and the coupling pair `[I, -I]` with zero right-hand side; the
operator and matrix lists have equal length and the coupling encodes
`x1 = x2`. -/
theorem cov_assembly (q : ℕ) (Q : Fin q → Fin q → ℚ) (alpha : ℚ)
    (pnld : (Fin q → Fin q → ℚ) → ℚ → (Fin q → Fin q → ℚ) → Fin q → Fin q → ℚ)
    (pn1 : (Fin (q * q) → ℚ) → ℚ → Fin (q * q) → ℚ) :
    (prox_list q Q alpha pnld pn1).length = (A_list q).length ∧
    (A_list q).length = 2 ∧
    A_list q = [(1 : Matrix (Fin (q * q)) (Fin (q * q)) ℚ), -1] ∧
    ∀ x1 x2 : Fin (q * q) → ℚ,
      ((1 : Matrix (Fin (q * q)) (Fin (q * q)) ℚ).mulVec x1 +
        (-1 : Matrix (Fin (q * q)) (Fin (q * q)) ℚ).mulVec x2 = b q ↔ x1 = x2) := by
  refine ⟨rfl, rfl, rfl, ?_⟩
  intro x1 x2
  rw [Matrix.neg_mulVec, Matrix.one_mulVec, Matrix.one_mulVec]
  have hb : b q = 0 := rfl
  rw [hb]
  exact add_neg_eq_zero

end SparseCov

namespace CoupledQP

/-! Coupled quadratic program notebook.

`prox_qp(v, t, Q, c, F, d)` builds the `cvxpy` problem
`minimize quad_form(x, Q + I/(2*t)) + (c - v/t)*x  subject to F*x <= d`
and hands it to the OSQP backend.  The backend itself is external; it is
modelled through `QPOutcome` and `BackendConformant` below. -/

abbrev Vec (n : ℕ) := Fin n → ℝ

/-- The quadratic program handed to the backend: objective
`x ⬝ P x + q ⬝ x` under the single inequality block `F x ≤ d`. -/
structure QProblem (n p : ℕ) where
  P : Matrix (Fin n) (Fin n) ℝ
  q : Vec n
  F : Matrix (Fin p) (Fin n) ℝ
  d : Vec p

variable {n p : ℕ}

def QProblem.objective (pr : QProblem n p) (x : Vec n) : ℝ :=
  x ⬝ᵥ pr.P.mulVec x + pr.q ⬝ᵥ x

def QProblem.Feasible (pr : QProblem n p) (x : Vec n) : Prop :=
  ∀ i, pr.F.mulVec x i ≤ pr.d i

def QProblem.IsSolution (pr : QProblem n p) (x : Vec n) : Prop :=
  pr.Feasible x ∧ ∀ y, pr.Feasible y → pr.objective x ≤ pr.objective y

def QProblem.Infeasible (pr : QProblem n p) : Prop :=
  ∀ x, ¬ pr.Feasible x

def QProblem.Unbounded (pr : QProblem n p) : Prop :=
  ∀ M : ℝ, ∃ x, pr.Feasible x ∧ pr.objective x < M

/-- Modelled from the spec: the external quadratic-program backend
"accepts a quadratic objective and a single linear inequality block,
returns an optimal point or signals infeasibility/solver failure", and
failure results must distinguish "did not converge" from
"infeasible/unbounded". -/
inductive QPOutcome (n : ℕ) where
  | optimal (x : Fin n → ℝ)
  | infeasibleOrUnbounded
  | didNotConverge

/-- Modelled from the spec: a backend conforming to the consumed interface
returns `optimal x` only for an actual minimizer, and signals
`infeasibleOrUnbounded` on an infeasible or unbounded subproblem. -/
def BackendConformant (solve : QProblem n p → QPOutcome n) : Prop :=
  (∀ pr x, solve pr = QPOutcome.optimal x → pr.IsSolution x) ∧
  (∀ pr, pr.Infeasible ∨ pr.Unbounded → solve pr = QPOutcome.infeasibleOrUnbounded)

/-- The problem constructed inside `prox_qp`:
`obj = quad_form(x, Q + I/(2*t)) + (c - v/t)*x`, `constr = [F*x <= d]`. -/
noncomputable def proxQpProblem (v : Vec n) (t : ℝ) (Q : Matrix (Fin n) (Fin n) ℝ) (c : Vec n)
    (F : Matrix (Fin p) (Fin n) ℝ) (d : Vec p) : QProblem n p :=
  { P := Q + (2 * t)⁻¹ • (1 : Matrix (Fin n) (Fin n) ℝ)
    q := c - t⁻¹ • v
    F := F
    d := d }

/-- The provider `prox_qp(v, t, Q, c, F, d)`: form the shifted quadratic program and
delegate it to the backend, returning whatever the backend reports. -/
noncomputable def prox_qp (solve : QProblem n p → QPOutcome n) (v : Vec n) (t : ℝ)
    (Q : Matrix (Fin n) (Fin n) ℝ) (c : Vec n)
    (F : Matrix (Fin p) (Fin n) ℝ) (d : Vec p) : QPOutcome n :=
  solve (proxQpProblem v t Q c F d)

/-- The objective the spec prescribes for block `l`, written out:
`xᵗ Q x + (1/(2t)) ‖x‖² + cᵗ x − (1/t) vᵗ x`. -/
noncomputable def specQpObjective (Q : Matrix (Fin n) (Fin n) ℝ) (c v : Vec n) (t : ℝ)
    (x : Vec n) : ℝ :=
  x ⬝ᵥ Q.mulVec x + (2 * t)⁻¹ * (x ⬝ᵥ x) + (c ⬝ᵥ x - t⁻¹ * (v ⬝ᵥ x))

theorem proxQpProblem_objective (v : Vec n) (t : ℝ) (Q : Matrix (Fin n) (Fin n) ℝ)
    (c : Vec n) (F : Matrix (Fin p) (Fin n) ℝ) (d : Vec p) (x : Vec n) :
    (proxQpProblem v t Q c F d).objective x = specQpObjective Q c v t x := by
  simp only [proxQpProblem, QProblem.objective, specQpObjective, Matrix.add_mulVec,
    Matrix.smul_mulVec_assoc, Matrix.one_mulVec, dotProduct_add, dotProduct_smul,
    sub_dotProduct, smul_dotProduct, smul_eq_mul]

theorem dotProduct_self_pos {z : Vec n} (hz : z ≠ 0) : 0 < z ⬝ᵥ z := by
  obtain ⟨i, hi⟩ : ∃ i, z i ≠ 0 := by
    by_contra hc
    push_neg at hc
    exact hz (funext fun i => hc i)
  have hsum : z ⬝ᵥ z = ∑ i, z i ^ 2 := by
    simp [dotProduct, sq]
  rw [hsum]
  refine Finset.sum_pos' (fun j _ => sq_nonneg _) ⟨i, Finset.mem_univ i, ?_⟩
  exact lt_of_le_of_ne (sq_nonneg _) (Ne.symm (pow_ne_zero 2 hi))

/-- Strict convexity of the shifted quadratic: two minimizers of the formed
problem coincide when `Q` is positive semidefinite and `t > 0`. -/
theorem proxQpProblem_solution_unique (v : Vec n) (t : ℝ)
    (Q : Matrix (Fin n) (Fin n) ℝ) (c : Vec n)
    (F : Matrix (Fin p) (Fin n) ℝ) (d : Vec p)
    (hPSD : ∀ z : Vec n, 0 ≤ z ⬝ᵥ Q.mulVec z) (ht : 0 < t)
    {x y : Vec n}
    (hx : (proxQpProblem v t Q c F d).IsSolution x)
    (hy : (proxQpProblem v t Q c F d).IsSolution y) : x = y := by
  by_contra hne
  set pr := proxQpProblem v t Q c F d with hpr
  set m := (1 / 2 : ℝ) • (x + y) with hm
  have hmfeas : pr.Feasible m := by
    intro i
    have hfx := hx.1 i
    have hfy := hy.1 i
    have hmv : pr.F.mulVec m i = 1 / 2 * (pr.F.mulVec x i + pr.F.mulVec y i) := by
      simp only [hm, Matrix.mulVec_smul, Matrix.mulVec_add, Pi.smul_apply,
        Pi.add_apply, smul_eq_mul]
    rw [hmv]
    linarith
  have hval : pr.objective x = pr.objective y :=
    le_antisymm (hx.2 y hy.1) (hy.2 x hx.1)
  have hpar : pr.objective m =
      (pr.objective x + pr.objective y) / 2 -
        1 / 4 * ((x - y) ⬝ᵥ pr.P.mulVec (x - y)) := by
    simp only [QProblem.objective, hm, Matrix.mulVec_smul, Matrix.mulVec_add,
      Matrix.mulVec_sub, dotProduct_add, add_dotProduct, dotProduct_smul,
      smul_dotProduct, dotProduct_sub, sub_dotProduct, smul_eq_mul]
    ring
  have hdne : x - y ≠ 0 := sub_ne_zero.mpr hne
  have hpos : 0 < (x - y) ⬝ᵥ pr.P.mulVec (x - y) := by
    have h1 : 0 ≤ (x - y) ⬝ᵥ Q.mulVec (x - y) := hPSD _
    have h2t : 0 < (2 * t)⁻¹ := by positivity
    have hself : 0 < (x - y) ⬝ᵥ (x - y) := dotProduct_self_pos hdne
    have hexpand : (x - y) ⬝ᵥ pr.P.mulVec (x - y) =
        (x - y) ⬝ᵥ Q.mulVec (x - y) + (2 * t)⁻¹ * ((x - y) ⬝ᵥ (x - y)) := by
      simp only [hpr, proxQpProblem, Matrix.add_mulVec, Matrix.smul_mulVec_assoc,
        Matrix.one_mulVec, dotProduct_add, dotProduct_smul, smul_eq_mul]
    rw [hexpand]
    have := mul_pos h2t hself
    linarith
  have hlt : pr.objective m < pr.objective x := by
    rw [hpar, hval]
    linarith
  exact absurd (hx.2 m hmfeas) (not_le.mpr hlt)

/-- C1: `prox_qp(v, t, Q, c, F, d)` forms exactly the quadratic program
`minimize xᵗ(Q + I/(2t))x + (c − v/t)ᵗx  subject to F x ≤ d`; for `Q`
positive semidefinite and `t > 0` that program has at most one minimizer,
and any optimal point reported by a backend that solves this problem is
that unique minimizer. -/
theorem prox_qp_solves_unique_qp (n p : ℕ) (solve : QProblem n p → QPOutcome n)
    (v : Vec n) (t : ℝ) (Q : Matrix (Fin n) (Fin n) ℝ) (c : Vec n)
    (F : Matrix (Fin p) (Fin n) ℝ) (d : Vec p)
    (hsymm : Qᵀ = Q)
    (hPSD : ∀ z : Vec n, 0 ≤ z ⬝ᵥ Q.mulVec z) (ht : 0 < t)
    (hsolve : ∀ x, solve (proxQpProblem v t Q c F d) = QPOutcome.optimal x →
      (proxQpProblem v t Q c F d).IsSolution x) :
    (∀ x, (proxQpProblem v t Q c F d).objective x = specQpObjective Q c v t x) ∧
    (∀ x, (proxQpProblem v t Q c F d).Feasible x ↔ ∀ i, F.mulVec x i ≤ d i) ∧
    ∀ x, prox_qp solve v t Q c F d = QPOutcome.optimal x →
      (proxQpProblem v t Q c F d).IsSolution x ∧
      ∀ y, (proxQpProblem v t Q c F d).IsSolution y → y = x := by
  refine ⟨fun x => proxQpProblem_objective v t Q c F d x, fun x => Iff.rfl, ?_⟩
  intro x hx
  have hsol := hsolve x hx
  exact ⟨hsol, fun y hy =>
    proxQpProblem_solution_unique v t Q c F d hPSD ht hy hsol⟩

/-- A backend stub for the witness: it always reports the zero vector. -/
def wSolve : QProblem 1 1 → QPOutcome 1 := fun _ => QPOutcome.optimal 0

/-- Concrete witness data: the trivial one-dimensional block. -/
def wQ : Matrix (Fin 1) (Fin 1) ℝ := 0

def wF : Matrix (Fin 1) (Fin 1) ℝ := 0

def wc : Vec 1 := 0

def wv : Vec 1 := 0

def wd : Vec 1 := 0

theorem wSolve_correct_at_zero :
    ∀ x, wSolve (proxQpProblem wv 1 wQ wc wF wd) = QPOutcome.optimal x →
      (proxQpProblem wv 1 wQ wc wF wd).IsSolution x := by
  intro x hx
  have hx0 : x = 0 := by
    have h := (QPOutcome.optimal.injEq _ _).mp hx
    exact h.symm
  subst hx0
  unfold QProblem.IsSolution
  constructor
  · intro i
    simp [proxQpProblem, wF, wd, Matrix.mulVec_zero]
  · intro y hy
    have hobj0 : (proxQpProblem wv 1 wQ wc wF wd).objective 0 = 0 := by
      simp [proxQpProblem, QProblem.objective, Matrix.mulVec_zero]
    have hobjy : (proxQpProblem wv 1 wQ wc wF wd).objective y =
        (2 : ℝ)⁻¹ * (y ⬝ᵥ y) := by
      simp only [proxQpProblem, QProblem.objective, wQ, wc, wv, Matrix.add_mulVec,
        Matrix.smul_mulVec_assoc, Matrix.one_mulVec, Matrix.zero_mulVec,
        dotProduct_add, dotProduct_smul, smul_eq_mul, zero_add,
        sub_zero, smul_zero, sub_dotProduct, zero_dotProduct, add_zero,
        dotProduct_zero]
      norm_num
    rw [hobj0, hobjy]
    have hyy : 0 ≤ y ⬝ᵥ y := by
      rcases eq_or_ne y 0 with h | h
      · simp [h]
      · exact le_of_lt (dotProduct_self_pos h)
    positivity

theorem prox_qp_solves_unique_qp_witness :
    (wQᵀ = wQ ∧ (∀ z : Vec 1, 0 ≤ z ⬝ᵥ wQ.mulVec z) ∧ (0 : ℝ) < 1) ∧
    ((∀ x, (proxQpProblem wv 1 wQ wc wF wd).objective x =
        specQpObjective wQ wc wv 1 x) ∧
      (∀ x, (proxQpProblem wv 1 wQ wc wF wd).Feasible x ↔
        ∀ i, wF.mulVec x i ≤ wd i) ∧
      ∀ x, prox_qp wSolve wv 1 wQ wc wF wd = QPOutcome.optimal x →
        (proxQpProblem wv 1 wQ wc wF wd).IsSolution x ∧
        ∀ y, (proxQpProblem wv 1 wQ wc wF wd).IsSolution y → y = x) :=
  ⟨⟨Matrix.transpose_zero, fun z => by simp [wQ, Matrix.mulVec_zero], one_pos⟩,
    prox_qp_solves_unique_qp 1 1 wSolve wv 1 wQ wc wF wd Matrix.transpose_zero
      (fun z => by simp [wQ, Matrix.mulVec_zero]) one_pos wSolve_correct_at_zero⟩

/-- C2: when the formed quadratic subproblem is infeasible or unbounded and
the backend conforms to the consumed solver interface, `prox_qp` returns the
backend's explicit failure marker — never an `optimal` solution vector. -/
theorem prox_qp_surfaces_solver_error (n p : ℕ) (solve : QProblem n p → QPOutcome n)
    (v : Vec n) (t : ℝ) (Q : Matrix (Fin n) (Fin n) ℝ) (c : Vec n)
    (F : Matrix (Fin p) (Fin n) ℝ) (d : Vec p)
    (hconf : BackendConformant solve)
    (hbad : (proxQpProblem v t Q c F d).Infeasible ∨
      (proxQpProblem v t Q c F d).Unbounded) :
    prox_qp solve v t Q c F d = QPOutcome.infeasibleOrUnbounded ∧
    ∀ x, prox_qp solve v t Q c F d ≠ QPOutcome.optimal x := by
  have h : prox_qp solve v t Q c F d = QPOutcome.infeasibleOrUnbounded :=
    hconf.2 _ hbad
  refine ⟨h, ?_⟩
  intro x hx
  exact QPOutcome.noConfusion (h.symm.trans hx)

/-- A backend stub for the witness: it always reports failure. -/
def wBadSolve : QProblem 1 1 → QPOutcome 1 := fun _ => QPOutcome.infeasibleOrUnbounded

/-- An inequality right-hand side making `0 · x ≤ d` infeasible. -/
def wBadRhs : Vec 1 := fun _ => -1

theorem prox_qp_surfaces_solver_error_witness :
    (BackendConformant wBadSolve ∧
      ((proxQpProblem wv 1 wQ wc wF wBadRhs).Infeasible ∨
        (proxQpProblem wv 1 wQ wc wF wBadRhs).Unbounded)) ∧
    (prox_qp wBadSolve wv 1 wQ wc wF wBadRhs =
        QPOutcome.infeasibleOrUnbounded ∧
      ∀ x, prox_qp wBadSolve wv 1 wQ wc wF wBadRhs ≠ QPOutcome.optimal x) :=
  have hconf : BackendConformant wBadSolve :=
    ⟨fun pr x hx => QPOutcome.noConfusion hx, fun pr _ => rfl⟩
  have hbad : (proxQpProblem wv 1 wQ wc wF wBadRhs).Infeasible := by
    intro x hfeas
    have h0 := hfeas 0
    simp [proxQpProblem, wF, Matrix.zero_mulVec, wBadRhs] at h0
    linarith
  ⟨⟨hconf, Or.inl hbad⟩,
    prox_qp_surfaces_solver_error 1 1 wBadSolve wv 1 wQ wc wF wBadRhs hconf
      (Or.inl hbad)⟩

/-! Data generation (`np.hstack`) and post-processing of the coupled QP
notebook.  `np.hstack` of `L` blocks of width `ql` places block `l` at flat
positions `l * ql .. l * ql + ql - 1`. -/

variable {L s ql pl : ℕ}

/-- Model of `np.hstack` on `L` vectors of length `ql`. -/
def hstackV (vs : Fin L → Vec ql) : Vec (L * ql) :=
  fun k => vs (divIdx L ql k) (modIdx L ql k)

/-- Model of `np.hstack` on `L` matrices of shape `s × ql`. -/
def hstackM (Gs : Fin L → Matrix (Fin s) (Fin ql) ℝ) :
    Matrix (Fin s) (Fin (L * ql)) ℝ :=
  Matrix.of fun i k => Gs (divIdx L ql k) i (modIdx L ql k)

/-- Multiplying the horizontally stacked matrix by the stacked vector sums
the per-block products. -/
theorem hstackM_mulVec (Gs : Fin L → Matrix (Fin s) (Fin ql) ℝ)
    (zs : Fin L → Vec ql) :
    (hstackM Gs).mulVec (hstackV zs) = ∑ l, (Gs l).mulVec (zs l) := by
  funext i
  have hR : (∑ l, (Gs l).mulVec (zs l)) i = ∑ l, ∑ j, Gs l i j * zs l j := by
    rw [Finset.sum_apply]
    exact Finset.sum_congr rfl fun l _ => by simp [Matrix.mulVec, dotProduct]
  have hL : (hstackM Gs).mulVec (hstackV zs) i =
      ∑ k, Gs (divIdx L ql k) i (modIdx L ql k) * zs (divIdx L ql k) (modIdx L ql k) := by
    simp [Matrix.mulVec, dotProduct, hstackM, hstackV]
  rw [hR, hL]
  have hpair : ∑ pr : Fin L × Fin ql, Gs pr.1 i pr.2 * zs pr.1 pr.2 =
      ∑ k, Gs (divIdx L ql k) i (modIdx L ql k) * zs (divIdx L ql k) (modIdx L ql k) :=
    Fintype.sum_equiv (finPairEquiv L ql)
      (fun pr => Gs pr.1 i pr.2 * zs pr.1 pr.2)
      (fun k => Gs (divIdx L ql k) i (modIdx L ql k) * zs (divIdx L ql k) (modIdx L ql k))
      (fun pr => by simp [finPairEquiv, divIdx_flatIdx, modIdx_flatIdx])
  rw [← hpair, Fintype.sum_prod_type]

/-- Generated `d_list`: block `l` is `F_list[l].dot(z_tld_list[l]) + 0.1` (the scalar broadcasts
over all components). -/
noncomputable def d_list (F_list : Fin L → Matrix (Fin pl) (Fin ql) ℝ)
    (z_tld_list : Fin L → Vec ql) : Fin L → Vec pl :=
  fun l i => (F_list l).mulVec (z_tld_list l) i + 0.1

/-- Stacked coupling matrix `G = np.hstack(G_list)`. -/
def G (G_list : Fin L → Matrix (Fin s) (Fin ql) ℝ) :
    Matrix (Fin s) (Fin (L * ql)) ℝ :=
  hstackM G_list

/-- Stacked generated point `z_tld = np.hstack(z_tld_list)`. -/
def z_tld (z_tld_list : Fin L → Vec ql) : Vec (L * ql) :=
  hstackV z_tld_list

/-- Coupling right-hand side `h = G.dot(z_tld)`. -/
noncomputable def h (G_list : Fin L → Matrix (Fin s) (Fin ql) ℝ)
    (z_tld_list : Fin L → Vec ql) : Vec s :=
  (G G_list).mulVec (z_tld z_tld_list)

/-- C10: the generated coupled QP is feasible by construction — the block
inequalities hold at `z_tld` with componentwise slack exactly `0.1`, and
the coupling equality `∑ l, G_l z_l = h` holds exactly. -/
theorem generated_problem_feasible (F_list : Fin L → Matrix (Fin pl) (Fin ql) ℝ)
    (G_list : Fin L → Matrix (Fin s) (Fin ql) ℝ) (z_tld_list : Fin L → Vec ql) :
    (∀ (l : Fin L) (i : Fin pl),
        d_list F_list z_tld_list l i - (F_list l).mulVec (z_tld_list l) i = 0.1 ∧
        (F_list l).mulVec (z_tld_list l) i < d_list F_list z_tld_list l i) ∧
    ∑ l, (G_list l).mulVec (z_tld_list l) = h G_list z_tld_list := by
  constructor
  · intro l i
    unfold d_list
    constructor
    · ring
    · have h01 : (0 : ℝ) < 0.1 := by norm_num
      linarith
  · unfold h G z_tld
    exact (hstackM_mulVec G_list z_tld_list).symm

/-- The factory `prox_qp_wrapper(l, Q_list, c_list, F_list, d_list)`: a dedicated
factory that captures the block index `l` by value. -/
noncomputable def prox_qp_wrapper (solve : QProblem ql pl → QPOutcome ql)
    (l : Fin L) (Q_list : Fin L → Matrix (Fin ql) (Fin ql) ℝ)
    (c_list : Fin L → Vec ql) (F_list : Fin L → Matrix (Fin pl) (Fin ql) ℝ)
    (dls : Fin L → Vec pl) : Vec ql → ℝ → QPOutcome ql :=
  fun v t => prox_qp solve v t (Q_list l) (c_list l) (F_list l) (dls l)

/-- Assembled operator list `prox_list = list(map(lambda l: prox_qp_wrapper(l, …), range(L)))`. -/
noncomputable def prox_list (solve : QProblem ql pl → QPOutcome ql)
    (Q_list : Fin L → Matrix (Fin ql) (Fin ql) ℝ) (c_list : Fin L → Vec ql)
    (F_list : Fin L → Matrix (Fin pl) (Fin ql) ℝ) (dls : Fin L → Vec pl) :
    List (Vec ql → ℝ → QPOutcome ql) :=
  (List.finRange L).map (fun l => prox_qp_wrapper solve l Q_list c_list F_list dls)

theorem prox_list_length (solve : QProblem ql pl → QPOutcome ql)
    (Q_list : Fin L → Matrix (Fin ql) (Fin ql) ℝ) (c_list : Fin L → Vec ql)
    (F_list : Fin L → Matrix (Fin pl) (Fin ql) ℝ) (dls : Fin L → Vec pl) :
    (prox_list solve Q_list c_list F_list dls).length = L := by
  simp [prox_list]

/-- C4: the `l`-th assembled operator is bound to block `l`'s own data —
applying it to `(v, t)` is `prox_qp(v, t, Q_list[l], c_list[l], F_list[l],
d_list[l])`; no operator references the final loop index. -/
theorem prox_list_binds_by_value (solve : QProblem ql pl → QPOutcome ql)
    (Q_list : Fin L → Matrix (Fin ql) (Fin ql) ℝ) (c_list : Fin L → Vec ql)
    (F_list : Fin L → Matrix (Fin pl) (Fin ql) ℝ) (dls : Fin L → Vec pl)
    (l : Fin L) (v : Vec ql) (t : ℝ) :
    (prox_list solve Q_list c_list F_list dls).get
        (Fin.cast (prox_list_length solve Q_list c_list F_list dls).symm l) v t =
      prox_qp solve v t (Q_list l) (c_list l) (F_list l) (dls l) := by
  simp [prox_list, prox_qp_wrapper, List.get_eq_getElem, List.getElem_map,
    List.getElem_finRange]

/-- Model of `np.linalg.norm` of a vector. -/
noncomputable def npNorm {m : ℕ} (w : Fin m → ℝ) : ℝ :=
  Real.sqrt (∑ i, w i ^ 2)

theorem npNorm_sq {m : ℕ} (w : Fin m → ℝ) : npNorm w ^ 2 = ∑ i, w i ^ 2 :=
  Real.sq_sqrt (Finset.sum_nonneg fun i _ => sq_nonneg _)

/-- Realized objective `a2dr_obj = np.sum([x_l.dot(Q_l).dot(x_l) + c_l.dot(x_l) for l])`. -/
noncomputable def a2dr_obj (Q_list : Fin L → Matrix (Fin ql) (Fin ql) ℝ)
    (c_list : Fin L → Vec ql) (x : Fin L → Vec ql) : ℝ :=
  ((List.finRange L).map
    (fun l => x l ⬝ᵥ (Q_list l).mulVec (x l) + c_list l ⬝ᵥ x l)).sum

/-- The list `a2dr_constr_vio`: per-block squared norms of the clipped
inequality residuals, then the squared norm of the equality residual. -/
noncomputable def a2dr_constr_vio (F_list : Fin L → Matrix (Fin pl) (Fin ql) ℝ)
    (G_list : Fin L → Matrix (Fin s) (Fin ql) ℝ) (z_tld_list : Fin L → Vec ql)
    (x : Fin L → Vec ql) : List ℝ :=
  ((List.finRange L).map (fun l =>
    npNorm (fun i => max ((F_list l).mulVec (x l) i - d_list F_list z_tld_list l i) 0) ^ 2))
  ++ [npNorm (fun i => (G G_list).mulVec (hstackV x) i - h G_list z_tld_list i) ^ 2]

/-- Reported scalar `a2dr_constr_vio_val = np.sqrt(np.sum(a2dr_constr_vio))`. -/
noncomputable def a2dr_constr_vio_val (F_list : Fin L → Matrix (Fin pl) (Fin ql) ℝ)
    (G_list : Fin L → Matrix (Fin s) (Fin ql) ℝ) (z_tld_list : Fin L → Vec ql)
    (x : Fin L → Vec ql) : ℝ :=
  Real.sqrt ((a2dr_constr_vio F_list G_list z_tld_list x).sum)

/-- C5: the realized objective is `∑ l, (x_lᵗ Q_l x_l + c_lᵗ x_l)` and the
reported violation scalar is
`sqrt(∑ l, ‖max(F_l x_l − d_l, 0)‖² + ‖G x − h‖²)`. -/
theorem a2dr_post_processing (Q_list : Fin L → Matrix (Fin ql) (Fin ql) ℝ)
    (c_list : Fin L → Vec ql) (F_list : Fin L → Matrix (Fin pl) (Fin ql) ℝ)
    (G_list : Fin L → Matrix (Fin s) (Fin ql) ℝ) (z_tld_list : Fin L → Vec ql)
    (x : Fin L → Vec ql) :
    a2dr_obj Q_list c_list x =
      ∑ l, (x l ⬝ᵥ (Q_list l).mulVec (x l) + c_list l ⬝ᵥ x l) ∧
    a2dr_constr_vio_val F_list G_list z_tld_list x =
      Real.sqrt
        ((∑ l, ∑ i, max ((F_list l).mulVec (x l) i - d_list F_list z_tld_list l i) 0 ^ 2) +
          ∑ i, ((G G_list).mulVec (hstackV x) i - h G_list z_tld_list i) ^ 2) := by
  constructor
  · unfold a2dr_obj
    exact (Fin.sum_univ_def _).symm
  · unfold a2dr_constr_vio_val a2dr_constr_vio
    rw [List.sum_append, List.sum_cons, List.sum_nil, add_zero, ← Fin.sum_univ_def]
    congr 1
    congr 1
    · exact Finset.sum_congr rfl fun l _ => npNorm_sq _
    · exact npNorm_sq _

end CoupledQP
